import Mathlib

set_option maxHeartbeats 1000000

/-!
# Verification of the easy_profiler trace reader (`src/reader.cpp`)

This file shallowly embeds the trace-to-tree reconstruction and statistics
engine implemented by `fillTreesFromFile` and its helpers in
`src/src/reader.cpp`, and proves (or refutes) the frozen claims about it.

Modelling conventions:
* machine integers of the source are modelled as `Nat` (they are counters,
  timestamps and indices that the source never overflows in the modelled
  scenarios); the shared progress cell is an `Int` because its sign matters;
* the C++ `std::unordered_map`s are modelled as association lists with
  first-match lookup (`assocGet`) and replace-or-append update (`assocSet`),
  mirroring found-entry in-place mutation and `emplace` of a missing key;
* raw pointers into the bulk buffers are modelled by storing the decoded
  field values directly; `SerializedData::set` / `clear` become booleans
  that record whether the corresponding output buffer is currently set;
* fallible paths (a zero-length record prefix, which the source handles by
  returning 0, and the unchecked `descriptors[baseData->id()]` lookup,
  which is out-of-bounds undefined behaviour in the source) are made
  explicit with `Except DecodeAbort`.
-/

namespace ProfilerReader

/-- Association-list lookup, first match wins.  Models `unordered_map::find`. -/
def assocGet {κ α : Type} [BEq κ] (l : List (κ × α)) (k : κ) : Option α :=
  (l.find? (fun p => p.1 == k)).map (fun p => p.2)

/-- Association-list update: replace the first binding of `k`, or append a new
binding.  Models in-place mutation of a found entry / `emplace` of a new one. -/
def assocSet {κ α : Type} [BEq κ] : List (κ × α) → κ → α → List (κ × α)
  | [], k, v => [(k, v)]
  | p :: rest, k, v => if p.1 == k then (k, v) :: rest else p :: assocSet rest k v

/-- `profiler::BlockStatistics` (declared in `profiler/reader.h`; the field set
is taken from the uses in `reader.cpp` and the spec's data model). -/
structure BlockStatistics where
  total_duration : Nat
  min_duration : Nat
  max_duration : Nat
  min_duration_block : Nat
  max_duration_block : Nat
  calls_number : Nat
deriving Repr, DecidableEq

/-- Modelled from the spec: the `BlockStatistics(duration, block_index)`
constructor lives in `profiler/reader.h`, which is not part of the sources;
per the spec a fresh record has `calls = 1`, `total = min = max = duration`,
and both extremum indices equal to `block_index`. -/
def BlockStatistics.init (duration block_index : Nat) : BlockStatistics :=
  { total_duration := duration
    min_duration := duration
    max_duration := duration
    min_duration_block := block_index
    max_duration_block := block_index
    calls_number := 1 }

/-- The mutation performed by `update_statistics` on an already existing
record (`reader.cpp:213-228`): increment calls, add the duration to the
total, then update max/min and their owning block index under strict
comparisons. -/
def updateStats (stats : BlockStatistics) (duration block_index : Nat) :
    BlockStatistics :=
  let stats := { stats with
    calls_number := stats.calls_number + 1
    total_duration := stats.total_duration + duration }
  let stats :=
    if stats.max_duration < duration then
      { stats with max_duration_block := block_index, max_duration := duration }
    else stats
  if duration < stats.min_duration then
    { stats with min_duration_block := block_index, min_duration := duration }
  else stats

/-- `StatsMap`: statistics storage keyed by (specialized) block id
(`reader.cpp:175`, with passthrough hashing abstracted away). -/
def StatsMap : Type := List (Nat × BlockStatistics)

/-- `update_statistics` (`reader.cpp:201-242`): look the id up; mutate the
found record in place, or create a fresh one and emplace it.  Returns the
shared record together with the updated map. -/
def update_statistics (m : StatsMap) (id duration block_index : Nat) :
    BlockStatistics × StatsMap :=
  match assocGet m id with
  | some stats =>
    let stats2 := updateStats stats duration block_index
    (stats2, assocSet m id stats2)
  | none =>
    let stats := BlockStatistics.init duration block_index
    (stats, assocSet m id stats)

/-- Feeding a scope map a sequence of `(duration, block_index)` updates for a
single identity, as the build loop does for all blocks sharing one id. -/
def feedUpdates (m : StatsMap) (id : Nat) : List (Nat × Nat) → StatsMap
  | [] => m
  | (d, bi) :: rest => feedUpdates (update_statistics m id d bi).2 id rest

/-- Sum of the durations of a list of `(duration, block_index)` updates. -/
def sumDur (l : List (Nat × Nat)) : Nat :=
  l.foldl (fun a p => a + p.1) 0

/-- Running maximum of the durations, seeded with the first duration. -/
def maxDur (d0 : Nat) (l : List (Nat × Nat)) : Nat :=
  l.foldl (fun a p => Nat.max a p.1) d0

/-- Running minimum of the durations, seeded with the first duration. -/
def minDur (d0 : Nat) (l : List (Nat × Nat)) : Nat :=
  l.foldl (fun a p => Nat.min a p.1) d0

/-- Block index of the earliest update whose duration equals `v`
(0 if none does; it is only used at attained extrema). -/
def firstWithDur (l : List (Nat × Nat)) (v : Nat) : Nat :=
  match l.find? (fun p => p.1 == v) with
  | some p => p.2
  | none => 0

/-- `release_stats` (`reader.cpp:58-71`): dropping one reference decrements
`calls_number`; when the decremented counter hits zero the record is deleted
(`none`).  The unsigned wrap-around of `--calls_number` at 0 is not modelled;
every call site releases a record whose counter is at least 1. -/
def release_stats (s : BlockStatistics) : Option BlockStatistics :=
  if s.calls_number = 1 then none
  else some { s with calls_number := s.calls_number - 1 }

/-- A statistics record together with the number of `BlocksTree` nodes
currently holding a reference to it.  In the source the two are coupled:
every `update_statistics` call both increments `calls_number` and hands out
exactly one new reference, so `refs = calls_number` throughout. -/
structure SharedStats where
  stats : BlockStatistics
  refs : Nat
deriving Repr, DecidableEq

/-- One referencing `BlocksTree` node is destroyed: it calls `release_stats`
on its pointer; `none` means the record was freed. -/
def dropRef (st : SharedStats) : Option SharedStats :=
  match release_stats st.stats with
  | none => none
  | some s2 => some ⟨s2, st.refs - 1⟩

/-- Static descriptor metadata (`profiler::SerializedBlockDescriptor`):
only the block type and the name drive the modelled algorithm. -/
structure Descriptor where
  dtype : Nat
  dname : String
deriving Repr, DecidableEq

/-- Modelled from the spec: `BLOCK_TYPE_THREAD_SIGN` is declared in the
profiler headers, which are not part of the sources; its numeric value is
irrelevant, only its distinguishability. -/
def BLOCK_TYPE_THREAD_SIGN : Nat := 1

/-- One decoded block record (`profiler::SerializedBlock` view): wire
descriptor id, begin/end timestamps, display name, and the length prefix
`sz` of the record (used for the byte offset `i` and the zero-length check). -/
structure SBlock where
  id : Nat
  beginT : Nat
  endT : Nat
  bname : String
  sz : Nat
deriving Repr, DecidableEq

/-- Modelled from the spec: `SerializedBlock::duration()` is declared in the
profiler headers; per the spec it is the end timestamp minus the begin
timestamp. -/
def SBlock.duration (b : SBlock) : Nat := b.endT - b.beginT

/-- `profiler::BlocksTree`: the block's (possibly interned) id, its
timestamps, its insertion index, its subtree depth, and its owned children.
The statistics pointers carried by tree nodes in the source are not stored
on nodes here; the statistics maps they point into are modelled separately. -/
inductive BlocksTree : Type where
  | mk : (id : Nat) → (beginT : Nat) → (endT : Nat) → (block_index : Nat) →
      (depth : Nat) → (children : List BlocksTree) → BlocksTree
deriving Repr

def BlocksTree.id : BlocksTree → Nat
  | .mk i _ _ _ _ _ => i

def BlocksTree.beginT : BlocksTree → Nat
  | .mk _ b _ _ _ _ => b

def BlocksTree.endT : BlocksTree → Nat
  | .mk _ _ e _ _ _ => e

def BlocksTree.block_index : BlocksTree → Nat
  | .mk _ _ _ bi _ _ => bi

def BlocksTree.depth : BlocksTree → Nat
  | .mk _ _ _ _ d _ => d

def BlocksTree.children : BlocksTree → List BlocksTree
  | .mk _ _ _ _ _ cs => cs

def BlocksTree.duration (t : BlocksTree) : Nat := t.endT - t.beginT

/-- The backward scan of `reader.cpp:403-414`: the reverse iterator starts at
the second-to-last accumulated sibling and advances while the break condition
`mt0 > rlower1->node->begin()` fails; `[rlower1.base(), end())`, i.e. the
scanned run plus the never-examined last sibling, is moved into the new
block's children and erased from the sibling list.  Returns
`(remaining siblings, adopted children)`, both in original order. -/
def findChildrenSplit (siblings : List BlocksTree) (t0 : Nat) :
    List BlocksTree × List BlocksTree :=
  match siblings.reverse with
  | [] => ([], [])
  | lastS :: revRest =>
    let scanned := revRest.takeWhile (fun s => ! decide (t0 > s.beginT))
    let remaining := revRest.dropWhile (fun s => ! decide (t0 > s.beginT))
    (remaining.reverse, scanned.reverse ++ [lastS])

/-- The child-depth accumulation of `reader.cpp:432-433` / `441-442`:
`tree.depth` starts at 0 and each child raises it to its own depth if larger. -/
def childDepthFold (cs : List BlocksTree) : Nat :=
  cs.foldl (fun d c => Nat.max d c.depth) 0

/-- The identity interner (`reader.cpp:376-391`).  For an empty display name
the block keeps its wire id.  Otherwise the name is looked up in the
identification table: on a hit the stored specialized id is written into the
block; on a miss a new id equal to the current descriptor-table length is
minted, the block's original descriptor is appended (aliased) to the table,
and `(name, id)` is recorded.  Returns the block's (re)written id, the new
descriptor table and the new identification table. -/
def internName (descriptors : List Descriptor) (table : List (String × Nat))
    (descriptor : Descriptor) (origId : Nat) (name : String) :
    Nat × List Descriptor × List (String × Nat) :=
  if name = "" then (origId, descriptors, table)
  else
    match assocGet table name with
    | some i => (i, descriptors, table)
    | none =>
      let newId := descriptors.length
      (newId, descriptors ++ [descriptor], assocSet table name newId)

/-- The tree-insertion step (`reader.cpp:393-450`): if the new block begins
before the last accumulated sibling ends, the trailing run found by the
backward scan becomes its children, its depth becomes one plus the largest
child depth, and — when statistics are gathered — the per-parent scope map is
cleared and rebuilt from the adopted children; otherwise the block is
appended as a fresh leaf sibling.  (`children_duration` is also accumulated
by the source but never used afterwards, so it is not modelled.) -/
def insertIntoSiblings (gather : Bool) (pstats : StatsMap)
    (siblings : List BlocksTree) (nodeId beginT endT block_index : Nat) :
    List BlocksTree × StatsMap :=
  match siblings.getLast? with
  | some back =>
    if beginT < back.endT then
      let kp := findChildrenSplit siblings beginT
      let depth := childDepthFold kp.2 + 1
      let node := BlocksTree.mk nodeId beginT endT block_index depth kp.2
      let pstats2 :=
        if gather then
          kp.2.foldl
            (fun m c => (update_statistics m c.id c.duration c.block_index).2) []
        else pstats
      (kp.1 ++ [node], pstats2)
    else (siblings ++ [BlocksTree.mk nodeId beginT endT block_index 0 []], pstats)
  | none => (siblings ++ [BlocksTree.mk nodeId beginT endT block_index 0 []], pstats)

/-- `profiler::BlocksTreeRoot` for one thread: the synthetic root's children
(`root.tree.children`), the optional thread display name, and the synthetic
root's depth (`root.tree.depth`, finalized by the statistics stage). -/
structure RootState where
  siblings : List BlocksTree
  threadName : Option String
  rootDepth : Nat
deriving Repr

def RootState.empty : RootState := ⟨[], none, 0⟩

/-- Abort conditions of the block-decoding loop. -/
inductive DecodeAbort : Type where
  | zeroLengthRecord
  | descriptorOutOfRange
deriving Repr, DecidableEq

/-- The mutable state of the serial decode-and-build phase of
`fillTreesFromFile`. -/
structure DecodeState where
  roots : List (Nat × RootState)
  descriptors : List Descriptor
  identification_table : List (String × Nat)
  parentStats : List (Nat × StatsMap)
  threadStats : List (Nat × StatsMap)
  blocks_counter : Nat
  ioff : Nat
  progress : Int
  writeHappened : Bool

def DecodeState.init (descriptors : List Descriptor) : DecodeState :=
  { roots := []
    descriptors := descriptors
    identification_table := []
    parentStats := []
    threadStats := []
    blocks_counter := 0
    ioff := 0
    progress := 0
    writeHappened := false }

def getRootD (roots : List (Nat × RootState)) (tid : Nat) : RootState :=
  (assocGet roots tid).getD RootState.empty

def getStatsD (maps : List (Nat × StatsMap)) (tid : Nat) : StatsMap :=
  (assocGet maps tid).getD []

/-- `threaded_trees[thread_id]` (`reader.cpp:345`): `operator[]` creates a
default entry on first access. -/
def ensureRoot (roots : List (Nat × RootState)) (tid : Nat) :
    List (Nat × RootState) :=
  assocSet roots tid (getRootD roots tid)

/-- Decoding and attaching one block record (`reader.cpp:349-459`): the
zero-length-prefix check, the byte offset and `blocks_counter` bump, the
unchecked `descriptors[baseData->id()]` lookup (out of range is undefined
behaviour in the source, made an explicit abort here), the thread-name
assignment for thread-sign blocks, the identity interning, the tree
insertion, and — when gathering — the per-thread statistics update for the
appended node. -/
def processBlock (gather : Bool) (tid : Nat) (st : DecodeState) (b : SBlock) :
    Except DecodeAbort DecodeState :=
  if b.sz = 0 then .error .zeroLengthRecord
  else
    match st.descriptors.get? b.id with
    | none => .error .descriptorOutOfRange
    | some descriptor =>
      let block_index := st.blocks_counter
      let root := getRootD st.roots tid
      let root :=
        if descriptor.dtype = BLOCK_TYPE_THREAD_SIGN then
          { root with threadName := some b.bname }
        else root
      let it := internName st.descriptors st.identification_table descriptor
        b.id b.bname
      let pstats := getStatsD st.parentStats tid
      let sp := insertIntoSiblings gather pstats root.siblings it.1 b.beginT
        b.endT block_index
      let tstats := getStatsD st.threadStats tid
      let tstats2 :=
        if gather then
          (update_statistics tstats it.1 b.duration block_index).2
        else tstats
      .ok { st with
        roots := assocSet st.roots tid { root with siblings := sp.1 }
        descriptors := it.2.1
        identification_table := it.2.2
        parentStats := assocSet st.parentStats tid sp.2
        threadStats := assocSet st.threadStats tid tstats2
        blocks_counter := st.blocks_counter + 1
        ioff := st.ioff + b.sz }

/-- The caller-side cancellation event: the environment stores `v` into the
shared progress cell once, just after the `k`-th block has been decoded and
before the poll that follows it.  `writeHappened` is the ghost flag recording
that the write took place during the serial phase. -/
def applyEnv (env : Option (Nat × Int)) (st : DecodeState) : DecodeState :=
  match env with
  | some (k, v) =>
    if st.blocks_counter = k then { st with progress := v, writeHappened := true }
    else st
  | none => st

/-- The per-thread-group block loop (`reader.cpp:347-464`): after each decoded
block the shared progress cell is polled; a negative value breaks out of the
group, otherwise the serial phase stores its progress percentage
`10 + 80*i/memory_size`. -/
def processGroup (gather : Bool) (env : Option (Nat × Int)) (memory_size : Nat)
    (tid : Nat) (st : DecodeState) : List SBlock → Except DecodeAbort DecodeState
  | [] => .ok st
  | b :: rest =>
    match processBlock gather tid st b with
    | .error e => .error e
    | .ok st1 =>
      let st2 := applyEnv env st1
      if st2.progress < 0 then .ok st2
      else
        processGroup gather env memory_size tid
          { st2 with progress := 10 + Int.ofNat (80 * st2.ioff / memory_size) }
          rest

/-- The outer thread-group loop (`reader.cpp:335-465`): each group creates its
`threaded_trees[thread_id]` entry and runs the block loop. -/
def runGroups (gather : Bool) (env : Option (Nat × Int)) (memory_size : Nat)
    (st : DecodeState) : List (Nat × List SBlock) → Except DecodeAbort DecodeState
  | [] => .ok st
  | (tid, blocks) :: rest =>
    match processGroup gather env memory_size tid
        { st with roots := ensureRoot st.roots tid } blocks with
    | .error e => .error e
    | .ok st1 => runGroups gather env memory_size st1 rest

/-- `update_statistics_recursive` (`reader.cpp:246-253`): update the frame
scope map for a node and recurse into its children. -/
def update_statistics_recursive (m : StatsMap) : BlocksTree → StatsMap
  | .mk i bg en bi _ cs =>
    let m1 := (update_statistics m i (en - bg) bi).2
    cs.attach.foldl (fun acc c => update_statistics_recursive acc c.1) m1
decreasing_by
  have h := List.sizeOf_lt_of_mem c.2
  simp only [BlocksTree.mk.sizeOf_spec]
  omega

/-- The final depth bookkeeping performed for every thread root
(`reader.cpp:492-503` when gathering, `523-529` otherwise): the root's depth
is raised to the largest frame depth and then incremented.  Both branches of
the source perform exactly this computation. -/
def finalizeRoot (r : RootState) : RootState :=
  { r with
    rootDepth :=
      r.siblings.foldl (fun d f => Nat.max d f.depth) r.rootDepth + 1 }

/-- The statistics sweep of the parallel stage (`reader.cpp:486-501`): the
thread's per-parent scope map is cleared and rebuilt over the frames, and a
per-frame scope map is cleared and recursively filled for each frame. -/
def finalizeRootStats (r : RootState) : StatsMap × List StatsMap :=
  (r.siblings.foldl
      (fun m f => (update_statistics m f.id f.duration f.block_index).2) [],
    r.siblings.map (fun f => update_statistics_recursive [] f))

/-- The observable outcome of the decode-and-build operation. -/
structure FillResult where
  ret : Nat
  blocksBufSet : Bool
  trees : List (Nat × RootState)
  rootStats : List (Nat × (StatsMap × List StatsMap))
  writeHappened : Bool

/-- The decode-and-build phase of `fillTreesFromFile` after the header has
been decoded (`reader.cpp:331-537`): run the thread groups; if the progress
cell is negative afterwards, clear the block buffer and the thread trees and
return 0; otherwise finalize every root (depth bookkeeping in both modes,
plus the frame/parent statistics sweep when gathering) and return the number
of blocks placed. -/
def decodeRun (gather : Bool) (env : Option (Nat × Int)) (memory_size : Nat)
    (descriptors : List Descriptor) (groups : List (Nat × List SBlock)) :
    Except DecodeAbort FillResult :=
  match runGroups gather env memory_size (DecodeState.init descriptors) groups with
  | .error e => .error e
  | .ok st =>
    if st.progress < 0 then
      .ok { ret := 0, blocksBufSet := false, trees := [], rootStats := [],
            writeHappened := st.writeHappened }
    else
      .ok { ret := st.blocks_counter
            blocksBufSet := true
            trees := st.roots.map (fun p => (p.1, finalizeRoot p.2))
            rootStats :=
              if gather then st.roots.map (fun p => (p.1, finalizeRootStats p.2))
              else []
            writeHappened := st.writeHappened }

/-- Outcome of the header-decoding prefix of `fillTreesFromFile`
(`reader.cpp:274-299`): whether it returned 0, and whether each output
`SerializedData` buffer had been `set` by then.  The checks happen in source
order: block count, block payload size, `serialized_blocks.set`,
descriptor count, descriptor payload size, `serialized_descriptors.set`. -/
structure HeaderOutcome where
  ret0 : Bool
  blocksBufSet : Bool
  descBufSet : Bool
deriving Repr, DecidableEq

def headerPhase (total_blocks_number memory_size total_descriptors_number
    descriptors_memory_size : Nat) : HeaderOutcome :=
  if total_blocks_number = 0 then ⟨true, false, false⟩
  else if memory_size = 0 then ⟨true, false, false⟩
  else if total_descriptors_number = 0 then ⟨true, true, false⟩
  else if descriptors_memory_size = 0 then ⟨true, true, false⟩
  else ⟨false, true, true⟩

/-! ## Helper lemmas about lists and association lists -/

theorem find?_append_some {α : Type} {p : α → Bool} {l1 : List α} (l2 : List α)
    {a : α} (h : l1.find? p = some a) : (l1 ++ l2).find? p = some a := by
  induction l1 with
  | nil => simp at h
  | cons x xs ih =>
    by_cases hx : p x
    · rw [List.find?_cons_of_pos _ hx] at h
      rw [List.cons_append, List.find?_cons_of_pos _ hx]
      exact h
    · rw [List.find?_cons_of_neg _ hx] at h
      rw [List.cons_append, List.find?_cons_of_neg _ hx]
      exact ih h

theorem find?_append_none {α : Type} {p : α → Bool} {l1 : List α} (l2 : List α)
    (h : l1.find? p = none) : (l1 ++ l2).find? p = l2.find? p := by
  induction l1 with
  | nil => simp
  | cons x xs ih =>
    by_cases hx : p x
    · rw [List.find?_cons_of_pos _ hx] at h; exact absurd h (by simp)
    · rw [List.find?_cons_of_neg _ hx] at h
      rw [List.cons_append, List.find?_cons_of_neg _ hx]
      exact ih h

theorem find?_isSome_of_mem {α : Type} {p : α → Bool} {l : List α} {a : α}
    (ha : a ∈ l) (hp : p a = true) : (l.find? p).isSome := by
  induction l with
  | nil => simp at ha
  | cons x xs ih =>
    by_cases hx : p x
    · rw [List.find?_cons_of_pos _ hx]; rfl
    · rcases List.mem_cons.mp ha with h | h
      · subst h; exact absurd hp (by simp [hx])
      · rw [List.find?_cons_of_neg _ hx]; exact ih h

/-! ## Claim C1: statistics aggregation over repeated updates -/

theorem sumDur_append (xs : List (Nat × Nat)) (x : Nat × Nat) :
    sumDur (xs ++ [x]) = sumDur xs + x.1 := by
  simp [sumDur, List.foldl_append]

theorem maxDur_append (d0 : Nat) (xs : List (Nat × Nat)) (x : Nat × Nat) :
    maxDur d0 (xs ++ [x]) = Nat.max (maxDur d0 xs) x.1 := by
  simp [maxDur, List.foldl_append]

theorem minDur_append (d0 : Nat) (xs : List (Nat × Nat)) (x : Nat × Nat) :
    minDur d0 (xs ++ [x]) = Nat.min (minDur d0 xs) x.1 := by
  simp [minDur, List.foldl_append]

theorem le_maxDur (d0 : Nat) (l : List (Nat × Nat)) : d0 ≤ maxDur d0 l := by
  induction l generalizing d0 with
  | nil => simp [maxDur]
  | cons q t ih =>
    have : maxDur d0 (q :: t) = maxDur (Nat.max d0 q.1) t := rfl
    rw [this]
    exact le_trans (Nat.le_max_left d0 q.1) (ih (Nat.max d0 q.1))

theorem mem_le_maxDur (d0 : Nat) {l : List (Nat × Nat)} {q : Nat × Nat}
    (hq : q ∈ l) : q.1 ≤ maxDur d0 l := by
  induction l generalizing d0 with
  | nil => simp at hq
  | cons x xs ih =>
    have hrw : maxDur d0 (x :: xs) = maxDur (Nat.max d0 x.1) xs := rfl
    rw [hrw]
    rcases List.mem_cons.mp hq with h | h
    · subst h
      exact le_trans (Nat.le_max_right d0 q.1) (le_maxDur _ xs)
    · exact ih _ h

theorem maxDur_attained (d0 : Nat) (l : List (Nat × Nat)) :
    maxDur d0 l = d0 ∨ ∃ q ∈ l, q.1 = maxDur d0 l := by
  induction l generalizing d0 with
  | nil => left; rfl
  | cons x xs ih =>
    have hrw : maxDur d0 (x :: xs) = maxDur (Nat.max d0 x.1) xs := rfl
    rw [hrw]
    rcases ih (Nat.max d0 x.1) with h | ⟨q, hq, hqv⟩
    · rcases Nat.le_total d0 x.1 with hle | hle
      · right
        refine ⟨x, List.mem_cons_self _ _, ?_⟩
        rw [h]
        exact (Nat.max_eq_right hle).symm
      · rw [h]
        left
        exact Nat.max_eq_left hle
    · right; exact ⟨q, List.mem_cons_of_mem _ hq, hqv⟩

theorem minDur_le (d0 : Nat) (l : List (Nat × Nat)) : minDur d0 l ≤ d0 := by
  induction l generalizing d0 with
  | nil => simp [minDur]
  | cons q t ih =>
    have : minDur d0 (q :: t) = minDur (Nat.min d0 q.1) t := rfl
    rw [this]
    exact le_trans (ih (Nat.min d0 q.1)) (Nat.min_le_left d0 q.1)

theorem minDur_le_mem (d0 : Nat) {l : List (Nat × Nat)} {q : Nat × Nat}
    (hq : q ∈ l) : minDur d0 l ≤ q.1 := by
  induction l generalizing d0 with
  | nil => simp at hq
  | cons x xs ih =>
    have hrw : minDur d0 (x :: xs) = minDur (Nat.min d0 x.1) xs := rfl
    rw [hrw]
    rcases List.mem_cons.mp hq with h | h
    · subst h
      exact le_trans (minDur_le _ xs) (Nat.min_le_right d0 q.1)
    · exact ih _ h

theorem minDur_attained (d0 : Nat) (l : List (Nat × Nat)) :
    minDur d0 l = d0 ∨ ∃ q ∈ l, q.1 = minDur d0 l := by
  induction l generalizing d0 with
  | nil => left; rfl
  | cons x xs ih =>
    have hrw : minDur d0 (x :: xs) = minDur (Nat.min d0 x.1) xs := rfl
    rw [hrw]
    rcases ih (Nat.min d0 x.1) with h | ⟨q, hq, hqv⟩
    · rcases Nat.le_total d0 x.1 with hle | hle
      · rw [h]
        left
        exact Nat.min_eq_left hle
      · right
        refine ⟨x, List.mem_cons_self _ _, ?_⟩
        rw [h]
        exact (Nat.min_eq_right hle).symm
    · right; exact ⟨q, List.mem_cons_of_mem _ hq, hqv⟩

theorem firstWithDur_append_not_mem {xs ys : List (Nat × Nat)} {v : Nat}
    (h : ∀ q ∈ xs, q.1 ≠ v) :
    firstWithDur (xs ++ ys) v = firstWithDur ys v := by
  unfold firstWithDur
  rw [find?_append_none]
  exact List.find?_eq_none.mpr (fun q hq => by simp [h q hq])

theorem firstWithDur_append_found {xs ys : List (Nat × Nat)} {v : Nat} {q : Nat × Nat}
    (h : xs.find? (fun p => p.1 == v) = some q) :
    firstWithDur (xs ++ ys) v = firstWithDur xs v := by
  unfold firstWithDur
  rw [find?_append_some ys h, h]

/-- The found-record mutation, written field by field with the source's
strict comparisons. -/
theorem updateStats_eq (s : BlockStatistics) (d i : Nat) :
    updateStats s d i =
      { total_duration := s.total_duration + d
        min_duration := if d < s.min_duration then d else s.min_duration
        max_duration := if s.max_duration < d then d else s.max_duration
        min_duration_block := if d < s.min_duration then i else s.min_duration_block
        max_duration_block := if s.max_duration < d then i else s.max_duration_block
        calls_number := s.calls_number + 1 } := by
  unfold updateStats
  by_cases h1 : s.max_duration < d <;> by_cases h2 : d < s.min_duration <;>
    simp [h1, h2]

/-- Processing the updates `l` after the creating update `(d0, i0)`,
characterised field by field. -/
theorem foldl_updateStats_spec (d0 i0 : Nat) (l : List (Nat × Nat)) :
    l.foldl (fun s p => updateStats s p.1 p.2) (BlockStatistics.init d0 i0) =
      { total_duration := d0 + sumDur l
        min_duration := minDur d0 l
        max_duration := maxDur d0 l
        min_duration_block := firstWithDur ((d0, i0) :: l) (minDur d0 l)
        max_duration_block := firstWithDur ((d0, i0) :: l) (maxDur d0 l)
        calls_number := l.length + 1 } := by
  induction l using List.reverseRecOn with
  | nil =>
    simp [BlockStatistics.init, sumDur, minDur, maxDur, firstWithDur, List.find?]
  | append_singleton xs x ih =>
    rw [List.foldl_append, List.foldl_cons, List.foldl_nil, ih, updateStats_eq]
    have hconsapp :
        (d0, i0) :: (xs ++ [x]) = ((d0, i0) :: xs) ++ [x] := rfl
    dsimp only
    rw [BlockStatistics.mk.injEq]
    refine ⟨?_, ?_, ?_, ?_, ?_, by simp⟩
    · rw [sumDur_append]; omega
    · rw [minDur_append]
      rcases Nat.lt_or_ge x.1 (minDur d0 xs) with hm | hm
      · rw [if_pos hm]
        exact (Nat.min_eq_right hm.le).symm
      · rw [if_neg (Nat.not_lt.mpr hm)]
        exact (Nat.min_eq_left hm).symm
    · rw [maxDur_append]
      rcases Nat.lt_or_ge (maxDur d0 xs) x.1 with hM | hM
      · rw [if_pos hM]
        exact (Nat.max_eq_right hM.le).symm
      · rw [if_neg (Nat.not_lt.mpr hM)]
        exact (Nat.max_eq_left hM).symm
    · rw [minDur_append, hconsapp]
      rcases Nat.lt_or_ge x.1 (minDur d0 xs) with hm | hm
      · have hv : Nat.min (minDur d0 xs) x.1 = x.1 := Nat.min_eq_right hm.le
        rw [if_pos hm, hv]
        rw [firstWithDur_append_not_mem]
        · simp [firstWithDur, List.find?]
        · intro q hq
          rcases List.mem_cons.mp hq with h | h
          · subst h
            have := minDur_le d0 xs
            omega
          · have := minDur_le_mem d0 h
            omega
      · have hv : Nat.min (minDur d0 xs) x.1 = minDur d0 xs :=
          Nat.min_eq_left hm
        rw [if_neg (Nat.not_lt.mpr hm), hv]
        have hsome : (((d0, i0) :: xs).find?
            (fun p => p.1 == minDur d0 xs)).isSome := by
          rcases minDur_attained d0 xs with h | ⟨q, hq, hqv⟩
          · exact find?_isSome_of_mem (List.mem_cons_self _ _)
              (by simp [h])
          · exact find?_isSome_of_mem (List.mem_cons_of_mem _ hq)
              (by simp [hqv])
        rcases Option.isSome_iff_exists.mp hsome with ⟨q, hq⟩
        rw [firstWithDur_append_found hq]
    · rw [maxDur_append, hconsapp]
      rcases Nat.lt_or_ge (maxDur d0 xs) x.1 with hM | hM
      · have hv : Nat.max (maxDur d0 xs) x.1 = x.1 := Nat.max_eq_right hM.le
        rw [if_pos hM, hv]
        rw [firstWithDur_append_not_mem]
        · simp [firstWithDur, List.find?]
        · intro q hq
          rcases List.mem_cons.mp hq with h | h
          · subst h
            have := le_maxDur d0 xs
            omega
          · have := mem_le_maxDur d0 h
            omega
      · have hv : Nat.max (maxDur d0 xs) x.1 = maxDur d0 xs :=
          Nat.max_eq_left hM
        rw [if_neg (Nat.not_lt.mpr hM), hv]
        have hsome : (((d0, i0) :: xs).find?
            (fun p => p.1 == maxDur d0 xs)).isSome := by
          rcases maxDur_attained d0 xs with h | ⟨q, hq, hqv⟩
          · exact find?_isSome_of_mem (List.mem_cons_self _ _)
              (by simp [h])
          · exact find?_isSome_of_mem (List.mem_cons_of_mem _ hq)
              (by simp [hqv])
        rcases Option.isSome_iff_exists.mp hsome with ⟨q, hq⟩
        rw [firstWithDur_append_found hq]

theorem feedUpdates_singleton (id : Nat) (s : BlockStatistics)
    (l : List (Nat × Nat)) :
    feedUpdates [(id, s)] id l =
      [(id, l.foldl (fun a p => updateStats a p.1 p.2) s)] := by
  induction l generalizing s with
  | nil => rfl
  | cons q t ih =>
    rcases q with ⟨d, bi⟩
    have hstep : update_statistics [(id, s)] id d bi =
        (updateStats s d bi, [(id, updateStats s d bi)]) := by
      simp [update_statistics, assocGet, assocSet, List.find?]
    simp only [feedUpdates, hstep, List.foldl_cons]
    exact ih (updateStats s d bi)

/-- C1.  For every scope map fed `N = l.length + 1` successive updates for
the same identity `id` with durations `d0, l₁.1, l₂.1, …`, `update_statistics`
leaves the record for `id` with `calls_number = N`, `total_duration` the sum
of the durations, `max_duration` their maximum with the block index of the
earliest update achieving it, and `min_duration` their minimum with the block
index of the earliest update achieving it; the strict comparisons of the
source mean an update equal to the current extremum never replaces the
recorded extremum or its index, which is exactly the first-achiever
attribution (`firstWithDur`) proved here. -/
theorem C1_update_statistics_aggregates (id d0 i0 : Nat) (l : List (Nat × Nat)) :
    assocGet (feedUpdates [] id ((d0, i0) :: l)) id = some
      { total_duration := d0 + sumDur l
        min_duration := minDur d0 l
        max_duration := maxDur d0 l
        min_duration_block := firstWithDur ((d0, i0) :: l) (minDur d0 l)
        max_duration_block := firstWithDur ((d0, i0) :: l) (maxDur d0 l)
        calls_number := l.length + 1 } := by
  have hfirst : update_statistics [] id d0 i0 =
      (BlockStatistics.init d0 i0, [(id, BlockStatistics.init d0 i0)]) := by
    simp [update_statistics, assocGet, assocSet, List.find?]
  simp only [feedUpdates, hfirst]
  rw [feedUpdates_singleton, foldl_updateStats_spec]
  simp [assocGet, List.find?]

/-! ## Claim C2: the reference-count / call-count coupling -/

/-- C2, counterexample.  A record created and then updated once has
`calls_number = 2` and is referenced by two tree nodes; when one of them
drops its reference, `release_stats` decrements `calls_number` to 1 while a
live reference remains (`refs = 1 ≠ 0`), so the calls number *does* decrease
while a live reference exists, contradicting the claim. -/
theorem C2_calls_number_decreases_with_live_reference :
    dropRef ⟨updateStats (BlockStatistics.init 5 0) 5 1, 2⟩ =
      some ⟨{ total_duration := 10, min_duration := 5, max_duration := 5,
              min_duration_block := 0, max_duration_block := 0,
              calls_number := 1 }, 1⟩ ∧
    (1 : Nat) ≠ 0 ∧
    (1 : Nat) < (updateStats (BlockStatistics.init 5 0) 5 1).calls_number := by
  refine ⟨rfl, by decide, by decide⟩

/-- C2, amended.  In the source `calls_number` doubles as the reference
count: every reference drop decrements it by one, and the record is freed
(`dropRef = none`) exactly when the dropped reference was the last one.
Under the coupling invariant `refs = calls_number` maintained by
`update_statistics`, the record therefore becomes unreachable exactly when
the last referencing tree node drops its reference — but the calls-number
statistic decreases at every drop rather than never decreasing. -/
theorem C2_release_stats_couples_refcount (s : BlockStatistics) (refs : Nat)
    (hcoupled : refs = s.calls_number) (hlive : 1 ≤ refs) :
    (dropRef ⟨s, refs⟩ = none ↔ refs = 1) ∧
    (∀ out : SharedStats, dropRef ⟨s, refs⟩ = some out →
      out.stats.calls_number = s.calls_number - 1 ∧
      out.refs = refs - 1 ∧ out.refs = out.stats.calls_number) := by
  constructor
  · unfold dropRef release_stats
    by_cases h : s.calls_number = 1 <;> simp [h] <;> omega
  · intro out hout
    unfold dropRef release_stats at hout
    by_cases h : s.calls_number = 1
    · simp [h] at hout
    · simp [h] at hout
      rw [← hout]
      refine ⟨rfl, rfl, ?_⟩
      simp
      omega

/-- C2, witness for the amended theorem: a record with two references and
`calls_number = 2` is not freed by one drop and ends with one reference and
one recorded call. -/
theorem C2_release_stats_couples_refcount_witness :
    ((2 : Nat) = (BlockStatistics.init 7 0).calls_number + 1) ∧
    (dropRef ⟨{ BlockStatistics.init 7 0 with calls_number := 2 }, 2⟩ = none ↔
      (2 : Nat) = 1) := by
  refine ⟨by decide, ?_⟩
  exact (C2_release_stats_couples_refcount
    { BlockStatistics.init 7 0 with calls_number := 2 } 2 rfl (by decide)).1

/-! ## Claim C5: header zero checks and buffer side effects -/

/-- C5, counterexample.  With `total_block_count = 1`, block payload size 8,
`total_descriptor_count = 0` and descriptor payload size 1, the function
returns 0 as claimed, but `serialized_blocks.set` has already been executed
(`reader.cpp:284` precedes the descriptor-count check at line 290), so it is
not true that neither output buffer is set. -/
theorem C5_block_buffer_set_before_descriptor_checks :
    ¬ ((headerPhase 1 8 0 1).ret0 = true ∧
       (headerPhase 1 8 0 1).blocksBufSet = false ∧
       (headerPhase 1 8 0 1).descBufSet = false) := by
  decide

/-- C5, amended.  Whenever the decoded header declares a zero block count,
zero block payload size, zero descriptor count or zero descriptor payload
size, `fillTreesFromFile` returns 0 immediately and the descriptor buffer is
never set; but the block buffer is untouched only in the first two cases —
when the block count and block payload size are nonzero and a descriptor
zero-check fires, the block `SerializedData` buffer has already been set. -/
theorem C5_header_zero_checks (bc ms dc dms : Nat)
    (h : bc = 0 ∨ ms = 0 ∨ dc = 0 ∨ dms = 0) :
    (headerPhase bc ms dc dms).ret0 = true ∧
    (headerPhase bc ms dc dms).descBufSet = false ∧
    ((headerPhase bc ms dc dms).blocksBufSet = true ↔ (bc ≠ 0 ∧ ms ≠ 0)) := by
  unfold headerPhase
  by_cases h1 : bc = 0
  · simp [h1]
  · by_cases h2 : ms = 0
    · simp [h1, h2]
    · by_cases h3 : dc = 0
      · simp [h1, h2, h3]
      · by_cases h4 : dms = 0
        · simp [h1, h2, h3, h4]
        · rcases h with h | h | h | h <;> simp_all

/-- C5, witness: at header `(0, 4, 2, 4)` the zero block count aborts with
no buffer set. -/
theorem C5_header_zero_checks_witness :
    (headerPhase 0 4 2 4).ret0 = true ∧
    (headerPhase 0 4 2 4).descBufSet = false ∧
    ((headerPhase 0 4 2 4).blocksBufSet = true ↔ ((0 : Nat) ≠ 0 ∧ (4 : Nat) ≠ 0)) :=
  C5_header_zero_checks 0 4 2 4 (Or.inl rfl)

/-! ## Claim C3: the backward adoption scan -/

theorem head?_dropWhile_not {α : Type} (p : α → Bool) (l : List α) {a : α}
    (h : (l.dropWhile p).head? = some a) : p a = false := by
  induction l with
  | nil => simp [List.dropWhile] at h
  | cons x xs ih =>
    rw [List.dropWhile_cons] at h
    by_cases hx : p x
    · simp [hx] at h
      exact ih h
    · simp [hx] at h
      subst h
      exact Bool.of_not_eq_true hx

/-- Splitting off the adopted trailing run leaves the sibling list
decomposed as `keep ++ adopt` with the scanned prefix of `adopt` reversed
back to original order. -/
theorem findChildrenSplit_decomp (siblings : List BlocksTree) (t0 : Nat)
    (hne : siblings ≠ []) :
    (findChildrenSplit siblings t0).1 ++ (findChildrenSplit siblings t0).2 =
      siblings := by
  unfold findChildrenSplit
  match hrev : siblings.reverse with
  | [] =>
    exact absurd (by simpa using congrArg List.reverse hrev) hne
  | lastS :: revRest =>
    have hsib : siblings = revRest.reverse ++ [lastS] := by
      have := congrArg List.reverse hrev
      simpa using this
    have hsplit := List.takeWhile_append_dropWhile
      (fun s : BlocksTree => ! decide (t0 > s.beginT)) revRest
    dsimp only
    rw [← List.append_assoc, ← List.reverse_append, hsplit]
    exact hsib.symm

/-- The adopted run is never empty: it always contains at least the last
(never examined) sibling. -/
theorem findChildrenSplit_adopt_ne_nil (siblings : List BlocksTree) (t0 : Nat)
    (hne : siblings ≠ []) : (findChildrenSplit siblings t0).2 ≠ [] := by
  unfold findChildrenSplit
  match hrev : siblings.reverse with
  | [] =>
    exact absurd (by simpa using congrArg List.reverse hrev) hne
  | lastS :: revRest =>
    simp

/-- Every adopted sibling other than the final (never examined) one was
accepted by the scan, i.e. its begin time is at least `t0`. -/
theorem findChildrenSplit_adopt_ge (siblings : List BlocksTree) (t0 : Nat) :
    ∀ x ∈ (findChildrenSplit siblings t0).2.dropLast, t0 ≤ x.beginT := by
  unfold findChildrenSplit
  match hrev : siblings.reverse with
  | [] => simp
  | lastS :: revRest =>
    dsimp only
    rw [List.dropLast_concat]
    intro x hx
    have hmem : x ∈ revRest.takeWhile
        (fun s : BlocksTree => ! decide (t0 > s.beginT)) :=
      List.mem_reverse.mp hx
    have := List.mem_takeWhile_imp hmem
    simp at this
    exact this

/-- The boundary entry — the last sibling kept — is the first entry reached
by the backward scan whose begin time is strictly below `t0`. -/
theorem findChildrenSplit_keep_last (siblings : List BlocksTree) (t0 : Nat)
    {y : BlocksTree} (hy : (findChildrenSplit siblings t0).1.getLast? = some y) :
    y.beginT < t0 := by
  unfold findChildrenSplit at hy
  match hrev : siblings.reverse with
  | [] =>
    rw [hrev] at hy
    simp at hy
  | lastS :: revRest =>
    rw [hrev] at hy
    dsimp only at hy
    rw [List.getLast?_reverse] at hy
    have := head?_dropWhile_not _ _ hy
    simp at this
    exact this

/-- The adopted run ends with the original last sibling. -/
theorem findChildrenSplit_adopt_last (siblings : List BlocksTree) (t0 : Nat)
    (hne : siblings ≠ []) :
    (findChildrenSplit siblings t0).2.getLast? = siblings.getLast? := by
  unfold findChildrenSplit
  match hrev : siblings.reverse with
  | [] =>
    exact absurd (by simpa using congrArg List.reverse hrev) hne
  | lastS :: revRest =>
    dsimp only
    rw [List.getLast?_concat]
    rw [← List.head?_reverse, hrev]
    rfl

/-- C3, counterexample.  Siblings `X = [5,10)` and `Y = [7,20)` with a new
block beginning at `t0 = 5` (so `t0 <` the last sibling's end, 20): the scan
starts at `X`, does not break on it because its begin time *equals* `t0`
(`mt0 > begin` is false), and both `X` and `Y` are adopted.  The claim —
that the boundary is the first entry with begin `≤ t0` and that a sibling
whose begin equals `t0` is never adopted — demands that only `Y` be
detached; the source detaches `[X, Y]`. -/
theorem C3_equal_begin_sibling_is_adopted :
    (findChildrenSplit
        [BlocksTree.mk 0 5 10 0 0 [], BlocksTree.mk 0 7 20 1 0 []] 5) =
      ([], [BlocksTree.mk 0 5 10 0 0 [], BlocksTree.mk 0 7 20 1 0 []]) ∧
    ¬ (∀ x ∈ (findChildrenSplit
        [BlocksTree.mk 0 5 10 0 0 [], BlocksTree.mk 0 7 20 1 0 []] 5).2,
        5 < x.beginT) := by
  refine ⟨rfl, fun h => ?_⟩
  have := h (BlocksTree.mk 0 5 10 0 0 [])
    (by simp [findChildrenSplit, List.takeWhile_cons, BlocksTree.beginT])
  simp [BlocksTree.beginT] at this

/-- C3, amended.  When a newly decoded block with begin time `t0` satisfies
`t0 <` the end time of the last accumulated sibling, the builder scans
backward from the second-to-last sibling until it finds the first entry
whose begin time is *strictly less than* `t0` (or exhausts the list), and
detaches exactly the trailing run after that boundary, in original order, as
the new block's children; every detached sibling that the scan examined has
begin time `≥ t0` (the final, never-examined sibling is detached
unconditionally), and a sibling whose begin time *equals* `t0` is adopted
when reached by the scan. -/
theorem C3_backward_scan_boundary (siblings : List BlocksTree) (t0 : Nat)
    (hne : siblings ≠ []) :
    (findChildrenSplit siblings t0).1 ++ (findChildrenSplit siblings t0).2 =
      siblings ∧
    (findChildrenSplit siblings t0).2 ≠ [] ∧
    (∀ x ∈ (findChildrenSplit siblings t0).2.dropLast, t0 ≤ x.beginT) ∧
    (∀ y, (findChildrenSplit siblings t0).1.getLast? = some y →
      y.beginT < t0) ∧
    (findChildrenSplit siblings t0).2.getLast? = siblings.getLast? :=
  ⟨findChildrenSplit_decomp siblings t0 hne,
   findChildrenSplit_adopt_ne_nil siblings t0 hne,
   findChildrenSplit_adopt_ge siblings t0,
   fun _ hy => findChildrenSplit_keep_last siblings t0 hy,
   findChildrenSplit_adopt_last siblings t0 hne⟩

/-- C3, witness: the split of `[Z[0,4), X[5,10), Y[7,20)]` at `t0 = 5`
keeps `Z` (begin 0 < 5) and adopts `[X, Y]`. -/
theorem C3_backward_scan_boundary_witness :
    (findChildrenSplit
        [BlocksTree.mk 0 0 4 0 0 [], BlocksTree.mk 0 5 10 1 0 [],
         BlocksTree.mk 0 7 20 2 0 []] 5).1 ++
      (findChildrenSplit
        [BlocksTree.mk 0 0 4 0 0 [], BlocksTree.mk 0 5 10 1 0 [],
         BlocksTree.mk 0 7 20 2 0 []] 5).2 =
      [BlocksTree.mk 0 0 4 0 0 [], BlocksTree.mk 0 5 10 1 0 [],
       BlocksTree.mk 0 7 20 2 0 []] :=
  (C3_backward_scan_boundary
    [BlocksTree.mk 0 0 4 0 0 [], BlocksTree.mk 0 5 10 1 0 [],
     BlocksTree.mk 0 7 20 2 0 []] 5 (by simp)).1

/-! ## Claim C4: the concrete three-block scenario -/

/-- The C4 trace: one descriptor of a non-thread-sign type, and thread 7's
blocks `B = [10,50)`, `C = [60,90)`, `A = [0,100)` fed in end-time order
`B, C, A` (each with a nonzero record length). -/
def c4descriptors : List Descriptor := [⟨0, "d"⟩]

def c4groups : List (Nat × List SBlock) :=
  [(7, [⟨0, 10, 50, "", 1⟩, ⟨0, 60, 90, "", 1⟩, ⟨0, 0, 100, "", 1⟩])]

/-- C4.  For intervals A:[0,100], B:[10,50], C:[60,90] fed to the builder in
end-time order B, C, A for thread 7, the resulting thread tree — with and
without statistics gathering — has a single top-level node A with exactly
the two children B and C in that order, with `A.depth = 1`, `B.depth = 0`,
`C.depth = 0` (and the synthetic root at depth 2); all three blocks are
placed. -/
theorem C4_three_block_scenario :
    (decodeRun false none 100 c4descriptors c4groups).toOption.map
        (fun r => (r.trees, r.ret)) =
      some ([(7,
        { siblings := [BlocksTree.mk 0 0 100 2 1
            [BlocksTree.mk 0 10 50 0 0 [], BlocksTree.mk 0 60 90 1 0 []]]
          threadName := none
          rootDepth := 2 })], 3) ∧
    (decodeRun true none 100 c4descriptors c4groups).toOption.map
        (fun r => (r.trees, r.ret)) =
      some ([(7,
        { siblings := [BlocksTree.mk 0 0 100 2 1
            [BlocksTree.mk 0 10 50 0 0 [], BlocksTree.mk 0 60 90 1 0 []]]
          threadName := none
          rootDepth := 2 })], 3) :=
  ⟨rfl, rfl⟩

/-! ## Claim C7: identity interning -/

theorem assocGet_cons {κ α : Type} [BEq κ] (p : κ × α) (rest : List (κ × α))
    (k : κ) :
    assocGet (p :: rest) k = if p.1 == k then some p.2 else assocGet rest k := by
  unfold assocGet
  by_cases h : (p.1 == k) = true
  · rw [List.find?_cons_of_pos (p := fun q => q.1 == k) rest h, if_pos h]
    rfl
  · rw [List.find?_cons_of_neg (p := fun q => q.1 == k) rest h, if_neg h]

theorem assocGet_assocSet_self {κ α : Type} [BEq κ] [LawfulBEq κ]
    (l : List (κ × α)) (k : κ) (v : α) :
    assocGet (assocSet l k v) k = some v := by
  induction l with
  | nil => simp [assocSet, assocGet_cons, assocGet, List.find?]
  | cons p rest ih =>
    simp only [assocSet]
    by_cases h : (p.1 == k) = true
    · rw [if_pos h]
      simp [assocGet_cons]
    · rw [if_neg h, assocGet_cons, if_neg h]
      exact ih

theorem assocGet_assocSet_ne {κ α : Type} [BEq κ] [LawfulBEq κ]
    (l : List (κ × α)) {k k2 : κ} (v : α) (h : (k2 == k) = false) :
    assocGet (assocSet l k2 v) k = assocGet l k := by
  induction l with
  | nil => simp [assocSet, assocGet_cons, assocGet, List.find?, h]
  | cons p rest ih =>
    simp only [assocSet]
    by_cases hp : (p.1 == k2) = true
    · rw [if_pos hp]
      have hpe : p.1 = k2 := by simpa using hp
      simp [assocGet_cons, h, hpe]
    · rw [if_neg hp]
      rw [assocGet_cons, assocGet_cons]
      by_cases hk : (p.1 == k) = true
      · rw [if_pos hk, if_pos hk]
      · rw [if_neg hk, if_neg hk]
        exact ih

/-- A sequence of further interning steps, as performed for the remaining
blocks of the same decode operation. -/
def internMany (descriptors : List Descriptor) (table : List (String × Nat)) :
    List (Descriptor × Nat × String) → List Descriptor × List (String × Nat)
  | [] => (descriptors, table)
  | (d, oid, n) :: rest =>
    internMany (internName descriptors table d oid n).2.1
      (internName descriptors table d oid n).2.2 rest

/-- Interning never disturbs an existing name binding. -/
theorem internName_preserves_lookup {t : List (String × Nat)} {k : String}
    {v : Nat} (ds : List Descriptor) (d : Descriptor) (oid : Nat) (n : String)
    (h : assocGet t k = some v) :
    assocGet (internName ds t d oid n).2.2 k = some v := by
  unfold internName
  by_cases hn : n = ""
  · simpa [hn] using h
  · match hfind : assocGet t n with
    | some i => simpa [hn, hfind] using h
    | none =>
      have hne : (n == k) = false := by
        cases hb : (n == k) with
        | false => rfl
        | true =>
          have hnk : n = k := by simpa using hb
          rw [hnk] at hfind
          rw [hfind] at h
          exact absurd h (by simp)
      simp only [hn, hfind]
      simpa [assocGet_assocSet_ne t _ hne] using h

theorem internMany_preserves_lookup {k : String} {v : Nat} :
    ∀ (events : List (Descriptor × Nat × String)) (ds : List Descriptor)
      (t : List (String × Nat)), assocGet t k = some v →
      assocGet (internMany ds t events).2 k = some v := by
  intro events
  induction events with
  | nil => intro ds t h; simpa [internMany] using h
  | cons e rest ih =>
    intro ds t h
    rcases e with ⟨d, oid, n⟩
    exact ih _ _ (internName_preserves_lookup ds d oid n h)

/-- C7.  Within one decode operation: a never-before-seen non-empty name is
minted the identity equal to the current descriptor-table length (hence
strictly greater than every existing descriptor id), with an entry aliasing
the block's original descriptor appended to the table; a second
never-before-seen name then receives the next, distinct identity; and
re-interning the first name later — after arbitrarily many further interning
steps — yields the same specialized identity as the first time. -/
theorem C7_interning_mints_and_reuses_ids (ds : List Descriptor)
    (t : List (String × Nat)) (dA dB dC : Descriptor) (oidA oidB oidC : Nat)
    (nameA nameB : String) (events : List (Descriptor × Nat × String))
    (hA : nameA ≠ "") (hB : nameB ≠ "") (hAB : nameB ≠ nameA)
    (hAfresh : assocGet t nameA = none) (hBfresh : assocGet t nameB = none) :
    (internName ds t dA oidA nameA).1 = ds.length ∧
    (internName ds t dA oidA nameA).2.1 = ds ++ [dA] ∧
    (∀ j, j < ds.length → j < (internName ds t dA oidA nameA).1) ∧
    (internName (internName ds t dA oidA nameA).2.1
        (internName ds t dA oidA nameA).2.2 dB oidB nameB).1 = ds.length + 1 ∧
    (internName ds t dA oidA nameA).1 ≠
      (internName (internName ds t dA oidA nameA).2.1
        (internName ds t dA oidA nameA).2.2 dB oidB nameB).1 ∧
    (internName
        (internMany (internName ds t dA oidA nameA).2.1
          (internName ds t dA oidA nameA).2.2 events).1
        (internMany (internName ds t dA oidA nameA).2.1
          (internName ds t dA oidA nameA).2.2 events).2 dC oidC nameA).1 =
      (internName ds t dA oidA nameA).1 := by
  have hmint : internName ds t dA oidA nameA =
      (ds.length, ds ++ [dA], assocSet t nameA ds.length) := by
    simp [internName, hA, hAfresh]
  have hBA : (nameA == nameB) = false := by
    cases hb : (nameA == nameB) with
    | false => rfl
    | true =>
      have hba : nameA = nameB := by simpa using hb
      exact absurd hba.symm hAB
  have hBfresh2 : assocGet (assocSet t nameA ds.length) nameB = none := by
    rw [assocGet_assocSet_ne t _ hBA]
    exact hBfresh
  have hmint2 : (internName (ds ++ [dA]) (assocSet t nameA ds.length)
      dB oidB nameB).1 = (ds ++ [dA]).length := by
    simp [internName, hB, hBfresh2]
  have hAkept : assocGet (internMany (ds ++ [dA])
      (assocSet t nameA ds.length) events).2 nameA = some ds.length :=
    internMany_preserves_lookup events _ _ (assocGet_assocSet_self t nameA _)
  refine ⟨by rw [hmint], by rw [hmint], ?_, ?_, ?_, ?_⟩
  · intro j hj
    rw [hmint]
    exact hj
  · rw [hmint]
    simpa using hmint2
  · rw [hmint]
    simp only
    rw [hmint2]
    simp
  · rw [hmint]
    simp only
    simp [internName, hA, hAkept]

/-- C7, witness: with one pre-existing descriptor, interning `"a"` mints id
1, interning `"b"` next mints id 2, and re-interning `"a"` after a further
interning step still yields 1. -/
theorem C7_interning_mints_and_reuses_ids_witness :
    (internName [⟨0, "x"⟩] [] ⟨0, "x"⟩ 0 "a").1 = 1 ∧
    (internName (internName [⟨0, "x"⟩] [] ⟨0, "x"⟩ 0 "a").2.1
      (internName [⟨0, "x"⟩] [] ⟨0, "x"⟩ 0 "a").2.2 ⟨0, "x"⟩ 0 "b").1 = 2 ∧
    (internName
        (internMany (internName [⟨0, "x"⟩] [] ⟨0, "x"⟩ 0 "a").2.1
          (internName [⟨0, "x"⟩] [] ⟨0, "x"⟩ 0 "a").2.2
          [(⟨0, "x"⟩, 0, "c")]).1
        (internMany (internName [⟨0, "x"⟩] [] ⟨0, "x"⟩ 0 "a").2.1
          (internName [⟨0, "x"⟩] [] ⟨0, "x"⟩ 0 "a").2.2
          [(⟨0, "x"⟩, 0, "c")]).2 ⟨0, "x"⟩ 0 "a").1 = 1 := by
  have h := C7_interning_mints_and_reuses_ids [⟨0, "x"⟩] [] ⟨0, "x"⟩ ⟨0, "x"⟩
    ⟨0, "x"⟩ 0 0 0 "a" "b" [(⟨0, "x"⟩, 0, "c")] (by decide) (by decide)
    (by decide) rfl rfl
  exact ⟨h.1, h.2.2.2.1, by rw [h.2.2.2.2.2, h.1]; rfl⟩

/-! ## Claim C6: cooperative cancellation -/

/-- Decoding one block touches neither the progress cell nor the ghost
write flag. -/
theorem processBlock_fields {gather : Bool} {tid : Nat} {st : DecodeState}
    {b : SBlock} {st1 : DecodeState}
    (h : processBlock gather tid st b = .ok st1) :
    st1.progress = st.progress ∧ st1.writeHappened = st.writeHappened := by
  unfold processBlock at h
  by_cases hsz : b.sz = 0
  · rw [if_pos hsz] at h
    exact absurd h (by simp)
  · rw [if_neg hsz] at h
    rcases hd : st.descriptors.get? b.id with _ | d
    · rw [hd] at h
      exact absurd h (by simp)
    · rw [hd] at h
      simp only [Except.ok.injEq] at h
      rw [← h]
      exact ⟨rfl, rfl⟩

/-- Once the caller's negative write has happened, the progress cell stays
negative for the rest of the group loop: the poll that follows each decoded
block sees it before any further store. -/
theorem applyEnv_some (k : Nat) (v : Int) (st : DecodeState) :
    applyEnv (some (k, v)) st =
      if st.blocks_counter = k then
        { st with progress := v, writeHappened := true }
      else st := rfl

theorem processGroup_cancel_inv {gather : Bool} {ms tid : Nat} {k : Nat}
    {v : Int} (hv : v < 0) :
    ∀ (blocks : List SBlock) (st st1 : DecodeState),
      (st.writeHappened = true → st.progress < 0) →
      processGroup gather (some (k, v)) ms tid st blocks = .ok st1 →
      (st1.writeHappened = true → st1.progress < 0) := by
  intro blocks
  induction blocks with
  | nil =>
    intro st st1 hinv h
    unfold processGroup at h
    simp only [Except.ok.injEq] at h
    rw [← h]
    exact hinv
  | cons b rest ih =>
    intro st st1 hinv h
    unfold processGroup at h
    rcases hpb : processBlock gather tid st b with e | stx
    · rw [hpb] at h
      exact absurd h (by simp)
    · rw [hpb] at h
      simp only at h
      have hfields := processBlock_fields hpb
      have hw2 : (applyEnv (some (k, v)) stx).writeHappened = true →
          (applyEnv (some (k, v)) stx).progress < 0 := by
        intro hwb
        rw [applyEnv_some]
        by_cases hk : stx.blocks_counter = k
        · rw [if_pos hk]
          exact hv
        · rw [if_neg hk]
          rw [applyEnv_some, if_neg hk] at hwb
          rw [hfields.1]
          exact hinv (hfields.2 ▸ hwb)
      by_cases hneg : (applyEnv (some (k, v)) stx).progress < 0
      · rw [if_pos hneg] at h
        simp only [Except.ok.injEq] at h
        rw [← h]
        intro _
        exact hneg
      · rw [if_neg hneg] at h
        refine ih _ _ ?_ h
        intro hw3
        have hwfalse : (applyEnv (some (k, v)) stx).writeHappened = false := by
          cases hwb : (applyEnv (some (k, v)) stx).writeHappened
          · rfl
          · exact absurd (hw2 hwb) hneg
        exact absurd (hwfalse ▸ hw3) (by simp)

theorem runGroups_cancel_inv {gather : Bool} {ms : Nat} {k : Nat} {v : Int}
    (hv : v < 0) :
    ∀ (groups : List (Nat × List SBlock)) (st st1 : DecodeState),
      (st.writeHappened = true → st.progress < 0) →
      runGroups gather (some (k, v)) ms st groups = .ok st1 →
      (st1.writeHappened = true → st1.progress < 0) := by
  intro groups
  induction groups with
  | nil =>
    intro st st1 hinv h
    unfold runGroups at h
    simp only [Except.ok.injEq] at h
    rw [← h]
    exact hinv
  | cons g rest ih =>
    intro st st1 hinv h
    rcases g with ⟨tid, blocks⟩
    unfold runGroups at h
    rcases hpg : processGroup gather (some (k, v)) ms tid
        { st with roots := ensureRoot st.roots tid } blocks with e | stx
    · rw [hpg] at h
      exact absurd h (by simp)
    · rw [hpg] at h
      exact ih _ _ (processGroup_cancel_inv hv blocks _ _ (by exact hinv) hpg) h

/-- C6.  If the shared progress cell is set to a negative value during the
serial decode-and-build phase (the ghost flag `writeHappened` records
exactly that the caller's write landed before one of the per-block polls),
then the operation returns 0, the thread-roots mapping is cleared, and the
accumulated block buffer is discarded.  The poll after each decoded block is
the mechanism that makes the negative value stick: once observed, the phase
never stores over it. -/
theorem C6_cancellation_discards_output (gather : Bool) (ms : Nat)
    (descs : List Descriptor) (groups : List (Nat × List SBlock)) (k : Nat)
    (v : Int) (res : FillResult) (hv : v < 0)
    (hrun : decodeRun gather (some (k, v)) ms descs groups = .ok res)
    (hw : res.writeHappened = true) :
    res.ret = 0 ∧ res.trees = [] ∧ res.blocksBufSet = false := by
  unfold decodeRun at hrun
  rcases hg : runGroups gather (some (k, v)) ms (DecodeState.init descs)
      groups with e | st
  · rw [hg] at hrun
    exact absurd hrun (by simp)
  · rw [hg] at hrun
    dsimp only at hrun
    have hinv := runGroups_cancel_inv hv groups _ _
      (fun hfalse => absurd hfalse (by simp [DecodeState.init])) hg
    by_cases hneg : st.progress < 0
    · rw [if_pos hneg] at hrun
      simp only [Except.ok.injEq] at hrun
      rw [← hrun]
      exact ⟨rfl, rfl, rfl⟩
    · rw [if_neg hneg] at hrun
      simp only [Except.ok.injEq] at hrun
      refine absurd (hinv ?_) hneg
      rw [← hrun] at hw
      exact hw

/-- C6, witness: a single-block trace cancelled right after its first block
returns 0 with the trees cleared and the block buffer discarded. -/
theorem C6_cancellation_discards_output_witness :
    (decodeRun false (some (1, -1)) 100 [⟨0, "d"⟩] [(7, [⟨0, 0, 5, "", 4⟩])] =
      .ok { ret := 0, blocksBufSet := false, trees := [], rootStats := [],
            writeHappened := true }) ∧
    ({ ret := 0, blocksBufSet := false, trees := [], rootStats := [],
       writeHappened := true } : FillResult).ret = 0 ∧
    ({ ret := 0, blocksBufSet := false, trees := [], rootStats := [],
       writeHappened := true } : FillResult).trees = [] := by
  have hrun : decodeRun false (some (1, -1)) 100 [⟨0, "d"⟩]
      [(7, [⟨0, 0, 5, "", 4⟩])] =
      .ok { ret := 0, blocksBufSet := false, trees := [], rootStats := [],
            writeHappened := true } := by rfl
  refine ⟨hrun, ?_, ?_⟩
  · exact (C6_cancellation_discards_output false 100 [⟨0, "d"⟩]
      [(7, [⟨0, 0, 5, "", 4⟩])] 1 (-1)
      { ret := 0, blocksBufSet := false, trees := [], rootStats := [],
        writeHappened := true } (by decide) hrun rfl).1
  · rfl

/-! ## Claim C10: unchecked descriptor indexing -/

theorem applyEnv_fields (env : Option (Nat × Int)) (st : DecodeState) :
    (applyEnv env st).roots = st.roots ∧
    (applyEnv env st).descriptors = st.descriptors ∧
    (applyEnv env st).identification_table = st.identification_table ∧
    (applyEnv env st).blocks_counter = st.blocks_counter := by
  rcases env with _ | ⟨k, v⟩
  · exact ⟨rfl, rfl, rfl, rfl⟩
  · rw [applyEnv_some]
    by_cases hk : st.blocks_counter = k
    · rw [if_pos hk]
      exact ⟨rfl, rfl, rfl, rfl⟩
    · rw [if_neg hk]
      exact ⟨rfl, rfl, rfl, rfl⟩

/-- Interning only ever appends to the descriptor table. -/
theorem internName_length_le (ds : List Descriptor) (t : List (String × Nat))
    (d : Descriptor) (oid : Nat) (n : String) :
    ds.length ≤ (internName ds t d oid n).2.1.length := by
  unfold internName
  by_cases hn : n = ""
  · simp [hn]
  · rcases hfind : assocGet t n with _ | i
    · simp [hn, hfind]
    · simp [hn, hfind]

theorem processBlock_descriptors_le {gather : Bool} {tid : Nat}
    {st : DecodeState} {b : SBlock} {st1 : DecodeState}
    (h : processBlock gather tid st b = .ok st1) :
    st.descriptors.length ≤ st1.descriptors.length := by
  unfold processBlock at h
  by_cases hsz : b.sz = 0
  · rw [if_pos hsz] at h
    exact absurd h (by simp)
  · rw [if_neg hsz] at h
    rcases hd : st.descriptors.get? b.id with _ | d
    · rw [hd] at h
      exact absurd h (by simp)
    · rw [hd] at h
      simp only [Except.ok.injEq] at h
      rw [← h]
      exact internName_length_le _ _ _ _ _

/-- A block whose wire descriptor id is within the current descriptor table
never triggers the out-of-bounds lookup. -/
theorem processBlock_not_oob {gather : Bool} {tid : Nat} {st : DecodeState}
    {b : SBlock} (hid : b.id < st.descriptors.length) :
    processBlock gather tid st b ≠ .error .descriptorOutOfRange := by
  unfold processBlock
  by_cases hsz : b.sz = 0
  · rw [if_pos hsz]
    simp
  · rw [if_neg hsz]
    rcases hd : st.descriptors.get? b.id with _ | d
    · have := List.get?_eq_none.mp hd
      omega
    · simp

theorem processGroup_no_oob {gather : Bool} {env : Option (Nat × Int)}
    {ms tid D : Nat} :
    ∀ (blocks : List SBlock) (st : DecodeState),
      D ≤ st.descriptors.length → (∀ b ∈ blocks, b.id < D) →
      (processGroup gather env ms tid st blocks ≠
        .error .descriptorOutOfRange) ∧
      (∀ st1, processGroup gather env ms tid st blocks = .ok st1 →
        D ≤ st1.descriptors.length) := by
  intro blocks
  induction blocks with
  | nil =>
    intro st hD hpre
    constructor
    · unfold processGroup
      simp
    · intro st1 h
      unfold processGroup at h
      simp only [Except.ok.injEq] at h
      rw [← h]
      exact hD
  | cons b rest ih =>
    intro st hD hpre
    have hid : b.id < st.descriptors.length :=
      lt_of_lt_of_le (hpre b (List.mem_cons_self _ _)) hD
    have hrest : ∀ x ∈ rest, x.id < D :=
      fun x hx => hpre x (List.mem_cons_of_mem _ hx)
    constructor
    · unfold processGroup
      rcases hpb : processBlock gather tid st b with e | stx
      · intro hcontra
        have he : e = DecodeAbort.descriptorOutOfRange := by
          simpa using hcontra
        exact processBlock_not_oob hid (by rw [hpb, he])
      · dsimp only
        have hDx : D ≤ (applyEnv env stx).descriptors.length := by
          rw [(applyEnv_fields env stx).2.1]
          exact le_trans hD (processBlock_descriptors_le hpb)
        by_cases hneg : (applyEnv env stx).progress < 0
        · rw [if_pos hneg]
          simp
        · rw [if_neg hneg]
          exact (ih _ (by exact hDx) hrest).1
    · intro st1 h
      unfold processGroup at h
      rcases hpb : processBlock gather tid st b with e | stx
      · rw [hpb] at h
        exact absurd h (by simp)
      · rw [hpb] at h
        simp only at h
        have hDx : D ≤ (applyEnv env stx).descriptors.length := by
          rw [(applyEnv_fields env stx).2.1]
          exact le_trans hD (processBlock_descriptors_le hpb)
        by_cases hneg : (applyEnv env stx).progress < 0
        · rw [if_pos hneg] at h
          simp only [Except.ok.injEq] at h
          rw [← h]
          exact hDx
        · rw [if_neg hneg] at h
          exact (ih _ (by exact hDx) hrest).2 st1 h

theorem runGroups_no_oob {gather : Bool} {env : Option (Nat × Int)}
    {ms D : Nat} :
    ∀ (groups : List (Nat × List SBlock)) (st : DecodeState),
      D ≤ st.descriptors.length →
      (∀ g ∈ groups, ∀ b ∈ g.2, b.id < D) →
      runGroups gather env ms st groups ≠ .error .descriptorOutOfRange := by
  intro groups
  induction groups with
  | nil =>
    intro st hD hpre
    unfold runGroups
    simp
  | cons g rest ih =>
    intro st hD hpre
    rcases g with ⟨tid, blocks⟩
    unfold runGroups
    have hgrp : (processGroup gather env ms tid
          { st with roots := ensureRoot st.roots tid } blocks ≠
        .error .descriptorOutOfRange) ∧
        (∀ st1, processGroup gather env ms tid
            { st with roots := ensureRoot st.roots tid } blocks = .ok st1 →
          D ≤ st1.descriptors.length) :=
      processGroup_no_oob blocks
        { st with roots := ensureRoot st.roots tid } (by exact hD)
        (fun b hb => hpre (tid, blocks) (List.mem_cons_self _ _) b hb)
    rcases hpg : processGroup gather env ms tid
        { st with roots := ensureRoot st.roots tid } blocks with e | stx
    · intro hcontra
      have he : e = DecodeAbort.descriptorOutOfRange := by simpa using hcontra
      exact hgrp.1 (by rw [hpg, he])
    · exact ih stx (hgrp.2 stx hpg)
        (fun g2 hg2 => hpre g2 (List.mem_cons_of_mem _ hg2))

/-- C10.  The decode uses the wire descriptor id to index the descriptor
table without any bounds check (`descriptors[baseData->id()]`,
`reader.cpp:369`; in this embedding the unguarded access is the only source
of the `descriptorOutOfRange` abort).  Under the precondition that every
block's wire descriptor id is strictly below the initial descriptor-table
length, the lookup is always in bounds — the table only ever grows during
interning — and the decode never reaches that abort. -/
theorem C10_descriptor_indexing_in_bounds (gather : Bool)
    (env : Option (Nat × Int)) (ms : Nat) (descs : List Descriptor)
    (groups : List (Nat × List SBlock))
    (hpre : ∀ g ∈ groups, ∀ b ∈ g.2, b.id < descs.length) :
    decodeRun gather env ms descs groups ≠ .error .descriptorOutOfRange := by
  unfold decodeRun
  rcases hg : runGroups gather env ms (DecodeState.init descs) groups
      with e | st
  · intro hcontra
    have he : e = DecodeAbort.descriptorOutOfRange := by simpa using hcontra
    exact runGroups_no_oob groups (DecodeState.init descs)
      (le_refl _) hpre (by rw [hg, he])
  · dsimp only
    by_cases hneg : st.progress < 0
    · rw [if_pos hneg]
      simp
    · rw [if_neg hneg]
      simp

/-- C10, witness: a well-formed single-block trace whose only block uses
descriptor id 0 against a one-entry table never aborts on the descriptor
lookup. -/
theorem C10_descriptor_indexing_in_bounds_witness :
    decodeRun false none 1 [⟨0, "d"⟩] [(0, [⟨0, 0, 1, "", 1⟩])] ≠
      .error .descriptorOutOfRange :=
  C10_descriptor_indexing_in_bounds false none 1 [⟨0, "d"⟩]
    [(0, [⟨0, 0, 1, "", 1⟩])] (by decide)

/-! ## Claim C8: thread names from thread-sign blocks -/

/-- Whether a block's wire descriptor (resolved against the initial
descriptor table) marks it as a thread-name carrier. -/
def isThreadSign (descs : List Descriptor) (b : SBlock) : Bool :=
  match descs.get? b.id with
  | some d => d.dtype == BLOCK_TYPE_THREAD_SIGN
  | none => false

/-- The running thread-name assignment over a block sequence: every
thread-sign block overwrites the current name with its own. -/
def nameFold (descs : List Descriptor) (cur : Option String)
    (blocks : List SBlock) : Option String :=
  blocks.foldl (fun c b => if isThreadSign descs b then some b.bname else c) cur

/-- All blocks the trace feeds to thread `tid`, across its groups, in
order. -/
def blocksOfThread (groups : List (Nat × List SBlock)) (tid : Nat) :
    List SBlock :=
  (groups.filter (fun g => g.1 == tid)).flatMap (fun g => g.2)

/-- The thread name currently recorded for `tid` (`none` both before the
root entry exists and before any thread-sign block arrived). -/
def rootNameD (st : DecodeState) (tid : Nat) : Option String :=
  (getRootD st.roots tid).threadName

/-- The initial descriptor table stays an unmodified prefix of the growing
descriptor table. -/
def DescPrefix (descs : List Descriptor) (st : DecodeState) : Prop :=
  descs.length ≤ st.descriptors.length ∧
  ∀ j, j < descs.length → st.descriptors.get? j = descs.get? j

theorem applyEnv_none (st : DecodeState) : applyEnv none st = st := rfl

theorem internName_get?_eq (ds : List Descriptor) (t : List (String × Nat))
    (d : Descriptor) (oid : Nat) (n : String) (j : Nat) (hj : j < ds.length) :
    (internName ds t d oid n).2.1.get? j = ds.get? j := by
  unfold internName
  by_cases hn : n = ""
  · simp [hn]
  · rcases hfind : assocGet t n with _ | i
    · simp only [hn, hfind]
      simp only [List.get?_eq_getElem?]
      exact List.getElem?_append_left hj
    · simp [hn, hfind]

/-- One decoded block updates the thread name of its own thread exactly as
the thread-sign rule dictates, leaves every other thread's name unchanged,
and preserves the descriptor-table prefix. -/
theorem processBlock_rootName {gather : Bool} {tid : Nat} {st : DecodeState}
    {b : SBlock} {st1 : DecodeState} {descs : List Descriptor}
    (hdp : DescPrefix descs st) (hid : b.id < descs.length)
    (h : processBlock gather tid st b = .ok st1) :
    rootNameD st1 tid =
      (if isThreadSign descs b then some b.bname else rootNameD st tid) ∧
    (∀ tid2, tid2 ≠ tid → rootNameD st1 tid2 = rootNameD st tid2) ∧
    DescPrefix descs st1 := by
  unfold processBlock at h
  by_cases hsz : b.sz = 0
  · rw [if_pos hsz] at h
    exact absurd h (by simp)
  · rw [if_neg hsz] at h
    rcases hd : st.descriptors.get? b.id with _ | d
    · have h1 := List.get?_eq_none.mp hd
      have h2 := hdp.1
      omega
    · rw [hd] at h
      simp only [Except.ok.injEq] at h
      have hsign : isThreadSign descs b = (d.dtype == BLOCK_TYPE_THREAD_SIGN) := by
        unfold isThreadSign
        rw [← hdp.2 b.id hid, hd]
      refine ⟨?_, ?_, ?_⟩
      · rw [← h]
        unfold rootNameD getRootD
        dsimp only
        rw [assocGet_assocSet_self]
        rw [hsign]
        by_cases hdt : d.dtype = BLOCK_TYPE_THREAD_SIGN
        · simp [hdt]
        · simp [hdt]
      · intro tid2 htid2
        rw [← h]
        unfold rootNameD getRootD
        dsimp only
        rw [assocGet_assocSet_ne _ _ (beq_eq_false_iff_ne.mpr (Ne.symm htid2))]
      · rw [← h]
        refine ⟨?_, ?_⟩
        · exact le_trans hdp.1 (internName_length_le _ _ _ _ _)
        · intro j hj
          have hjlen : j < st.descriptors.length := lt_of_lt_of_le hj hdp.1
          dsimp only
          rw [internName_get?_eq _ _ _ _ _ j hjlen]
          exact hdp.2 j hj

/-- The block loop of one group folds the thread-sign rule over its blocks
(the progress cell stays nonnegative without a cancellation event, so the
loop never breaks early). -/
theorem processGroup_names {gather : Bool} {ms tid : Nat}
    {descs : List Descriptor} :
    ∀ (blocks : List SBlock) (st st1 : DecodeState),
      DescPrefix descs st → 0 ≤ st.progress →
      (∀ b ∈ blocks, b.id < descs.length) →
      processGroup gather none ms tid st blocks = .ok st1 →
      rootNameD st1 tid = nameFold descs (rootNameD st tid) blocks ∧
      (∀ tid2, tid2 ≠ tid → rootNameD st1 tid2 = rootNameD st tid2) ∧
      DescPrefix descs st1 ∧ 0 ≤ st1.progress := by
  intro blocks
  induction blocks with
  | nil =>
    intro st st1 hdp hprog hpre h
    unfold processGroup at h
    simp only [Except.ok.injEq] at h
    rw [← h]
    exact ⟨rfl, fun _ _ => rfl, hdp, hprog⟩
  | cons b rest ih =>
    intro st st1 hdp hprog hpre h
    unfold processGroup at h
    rcases hpb : processBlock gather tid st b with e | stx
    · rw [hpb] at h
      exact absurd h (by simp)
    · rw [hpb] at h
      simp only at h
      rw [applyEnv_none] at h
      have hfields := processBlock_fields hpb
      have hstep := processBlock_rootName hdp (hpre b (List.mem_cons_self _ _)) hpb
      have hnoneg : ¬ stx.progress < 0 := by
        rw [hfields.1]
        omega
      rw [if_neg hnoneg] at h
      have hofnat : 0 ≤ Int.ofNat (80 * stx.ioff / ms) := Int.ofNat_nonneg _
      have hrec := ih { stx with
          progress := 10 + Int.ofNat (80 * stx.ioff / ms) } st1
        (by exact hstep.2.2) (by dsimp only; omega)
        (fun x hx => hpre x (List.mem_cons_of_mem _ hx)) h
      refine ⟨?_, ?_, hrec.2.2.1, hrec.2.2.2⟩
      · rw [hrec.1]
        have hmid : rootNameD { stx with
            progress := 10 + Int.ofNat (80 * stx.ioff / ms) } tid =
            rootNameD stx tid := rfl
        rw [hmid, hstep.1]
        rfl
      · intro tid2 htid2
        rw [hrec.2.1 tid2 htid2]
        exact hstep.2.1 tid2 htid2

theorem ensureRoot_rootName (st : DecodeState) (tid : Nat) :
    ∀ tid2, rootNameD { st with roots := ensureRoot st.roots tid } tid2 =
      rootNameD st tid2 := by
  intro tid2
  unfold rootNameD getRootD ensureRoot
  dsimp only
  by_cases h : tid2 = tid
  · subst h
    rw [assocGet_assocSet_self]
    rfl
  · rw [assocGet_assocSet_ne _ _ (beq_eq_false_iff_ne.mpr (Ne.symm h))]

theorem blocksOfThread_cons (gtid : Nat) (blocks : List SBlock)
    (rest : List (Nat × List SBlock)) (tid : Nat) :
    blocksOfThread ((gtid, blocks) :: rest) tid =
      if gtid = tid then blocks ++ blocksOfThread rest tid
      else blocksOfThread rest tid := by
  unfold blocksOfThread
  by_cases h : gtid = tid
  · rw [if_pos h]
    rw [List.filter_cons_of_pos (by simp [h])]
    rw [List.flatMap_cons]
  · rw [if_neg h]
    rw [List.filter_cons_of_neg (by simp [h])]

theorem nameFold_append (descs : List Descriptor) (cur : Option String)
    (b1 b2 : List SBlock) :
    nameFold descs cur (b1 ++ b2) = nameFold descs (nameFold descs cur b1) b2 := by
  unfold nameFold
  rw [List.foldl_append]

/-- The outer group loop folds the thread-sign rule over all of a thread's
blocks across its groups. -/
theorem runGroups_names {gather : Bool} {ms : Nat} {descs : List Descriptor} :
    ∀ (groups : List (Nat × List SBlock)) (st st1 : DecodeState),
      DescPrefix descs st → 0 ≤ st.progress →
      (∀ g ∈ groups, ∀ b ∈ g.2, b.id < descs.length) →
      runGroups gather none ms st groups = .ok st1 →
      (∀ tid, rootNameD st1 tid =
        nameFold descs (rootNameD st tid) (blocksOfThread groups tid)) ∧
      DescPrefix descs st1 ∧ 0 ≤ st1.progress := by
  intro groups
  induction groups with
  | nil =>
    intro st st1 hdp hprog hpre h
    unfold runGroups at h
    simp only [Except.ok.injEq] at h
    rw [← h]
    exact ⟨fun tid => rfl, hdp, hprog⟩
  | cons g rest ih =>
    intro st st1 hdp hprog hpre h
    rcases g with ⟨gtid, blocks⟩
    unfold runGroups at h
    rcases hpg : processGroup gather none ms gtid
        { st with roots := ensureRoot st.roots gtid } blocks with e | stx
    · rw [hpg] at h
      exact absurd h (by simp)
    · rw [hpg] at h
      have hgrp := processGroup_names blocks
        { st with roots := ensureRoot st.roots gtid } stx
        (by exact hdp) (by exact hprog)
        (fun b hb => hpre (gtid, blocks) (List.mem_cons_self _ _) b hb) hpg
      have hrec := ih stx st1 hgrp.2.2.1 hgrp.2.2.2
        (fun g2 hg2 => hpre g2 (List.mem_cons_of_mem _ hg2)) h
      refine ⟨?_, hrec.2.1, hrec.2.2⟩
      intro tid
      rw [hrec.1 tid, blocksOfThread_cons]
      by_cases htid : gtid = tid
      · rw [if_pos htid]
        subst htid
        rw [nameFold_append]
        rw [hgrp.1, ensureRoot_rootName]
      · rw [if_neg htid]
        rw [hgrp.2.1 tid (fun he => htid he.symm), ensureRoot_rootName]

theorem assocGet_map_snd {α β : Type} (l : List (Nat × α)) (f : α → β)
    (k : Nat) :
    assocGet (l.map (fun p => (p.1, f p.2))) k = (assocGet l k).map f := by
  induction l with
  | nil => rfl
  | cons p rest ih =>
    rw [List.map_cons, assocGet_cons, assocGet_cons]
    by_cases h : (p.1 == k) = true
    · rw [if_pos h, if_pos h]
      rfl
    · rw [if_neg h, if_neg h]
      exact ih

theorem getLast?_cons_eq {α : Type} (a : α) (l : List α) :
    (a :: l).getLast? = match l.getLast? with
      | some x => some x
      | none => some a := by
  cases l with
  | nil => rfl
  | cons b t =>
    rw [List.getLast?_cons_cons]
    rcases hbt : (b :: t).getLast? with _ | x
    · rw [List.getLast?_eq_none_iff] at hbt
      exact absurd hbt (by simp)
    · rfl

/-- The running overwrite fold equals "the last thread-sign block wins". -/
theorem nameFold_eq_last_sign (descs : List Descriptor) :
    ∀ (blocks : List SBlock) (cur : Option String),
      nameFold descs cur blocks =
        match (blocks.filter (fun b => isThreadSign descs b)).getLast? with
        | some b => some b.bname
        | none => cur := by
  intro blocks
  induction blocks with
  | nil => intro cur; rfl
  | cons b rest ih =>
    intro cur
    unfold nameFold
    rw [List.foldl_cons]
    by_cases hs : isThreadSign descs b
    · rw [List.filter_cons_of_pos (by simp [hs])]
      have := ih (some b.bname)
      unfold nameFold at this
      rw [if_pos hs, this, getLast?_cons_eq]
      rcases hlast : (rest.filter (fun x => isThreadSign descs x)).getLast?
        with _ | bl
      · rfl
      · rfl
    · rw [List.filter_cons_of_neg (by simp [hs])]
      have := ih cur
      unfold nameFold at this
      rw [if_neg hs, this]

/-- C8, counterexample.  Thread 7 emits two thread-sign blocks named
`"alpha"` then `"beta"`; the source's unconditional assignment
`root.thread_name = tree.node->name()` makes the *last* one win, so the
final output records `"beta"`, not the first block's `"alpha"`. -/
theorem C8_last_thread_sign_block_wins :
    ((decodeRun false none 100 [⟨1, "t"⟩]
        [(7, [⟨0, 0, 10, "alpha", 1⟩, ⟨0, 20, 30, "beta", 1⟩])]).toOption.bind
      (fun res => assocGet res.trees 7)).map RootState.threadName =
      some (some "beta") ∧
    some (some "beta") ≠ some (some "alpha") := by
  constructor
  · rfl
  · simp

/-- C8, amended.  For every thread, *each* block whose descriptor type is
the thread-sign type overwrites the ThreadRoot's display name with its own;
the name recorded in the final output is therefore that of the *last* such
block emitted for the thread (and absent when the thread emits none). -/
theorem C8_thread_name_is_last_sign_block (gather : Bool) (ms : Nat)
    (descs : List Descriptor) (groups : List (Nat × List SBlock)) (tid : Nat)
    (res : FillResult) (r : RootState)
    (hpre : ∀ g ∈ groups, ∀ b ∈ g.2, b.id < descs.length)
    (hrun : decodeRun gather none ms descs groups = .ok res)
    (hfound : assocGet res.trees tid = some r) :
    r.threadName =
      match ((blocksOfThread groups tid).filter
          (fun b => isThreadSign descs b)).getLast? with
      | some b => some b.bname
      | none => none := by
  unfold decodeRun at hrun
  rcases hg : runGroups gather none ms (DecodeState.init descs) groups
      with e | st
  · rw [hg] at hrun
    exact absurd hrun (by simp)
  · rw [hg] at hrun
    dsimp only at hrun
    have hnames := runGroups_names groups (DecodeState.init descs) st
      ⟨le_refl _, fun j _ => rfl⟩ (by exact le_refl 0) hpre hg
    have hnoneg : ¬ st.progress < 0 := by
      have := hnames.2.2
      omega
    rw [if_neg hnoneg] at hrun
    simp only [Except.ok.injEq] at hrun
    have htrees : res.trees = st.roots.map (fun p => (p.1, finalizeRoot p.2)) := by
      rw [← hrun]
    rw [htrees, assocGet_map_snd] at hfound
    rcases hr0 : assocGet st.roots tid with _ | r0
    · rw [hr0] at hfound
      exact absurd hfound (by simp)
    · rw [hr0] at hfound
      have hrr : r = finalizeRoot r0 := by
        have := hfound
        simp at this
        exact this.symm
      have hname : r.threadName = r0.threadName := by
        rw [hrr]
        rfl
      have hroot : rootNameD st tid = r0.threadName := by
        unfold rootNameD getRootD
        rw [hr0]
        rfl
      rw [hname, ← hroot, hnames.1 tid]
      have hinit : rootNameD (DecodeState.init descs) tid = none := rfl
      rw [hinit, nameFold_eq_last_sign]
      rfl

/-- C8, witness for the amended theorem: on the concrete two-sign-block
trace, the recorded name is that of the last thread-sign block, `"beta"`. -/
theorem C8_thread_name_is_last_sign_block_witness :
    ({ siblings :=
        [BlocksTree.mk 1 0 10 0 0 [], BlocksTree.mk 2 20 30 1 0 []]
       threadName := some "beta"
       rootDepth := 1 } : RootState).threadName =
      match (((blocksOfThread
          [(7, [⟨0, 0, 10, "alpha", 1⟩, ⟨0, 20, 30, "beta", 1⟩])] 7)).filter
          (fun b => isThreadSign [⟨1, "t"⟩] b)).getLast? with
      | some b => some b.bname
      | none => none := by
  refine C8_thread_name_is_last_sign_block false 100 [⟨1, "t"⟩]
    [(7, [⟨0, 0, 10, "alpha", 1⟩, ⟨0, 20, 30, "beta", 1⟩])] 7 ?_ _
    (by decide) ?_ ?_
  · exact { ret := 2, blocksBufSet := true
            trees := [(7,
              { siblings := [BlocksTree.mk 1 0 10 0 0 [],
                  BlocksTree.mk 2 20 30 1 0 []]
                threadName := some "beta"
                rootDepth := 1 })]
            rootStats := []
            writeHappened := false }
  · rfl
  · rfl

/-! ## Claim C9: the subtree-depth invariant -/

/-- A tree node's depth field is faithful: 0 for a leaf, and one plus the
largest child depth otherwise (over `Nat` depths, `childDepthFold cs + 1`
with the fold seeded at 0 is exactly one plus the maximum child depth), with
the same property holding recursively in every child. -/
inductive DepthOk : BlocksTree → Prop where
  | node : ∀ (i bg en bi d : Nat) (cs : List BlocksTree),
      (∀ c ∈ cs, DepthOk c) →
      d = (if cs.isEmpty then 0 else childDepthFold cs + 1) →
      DepthOk (BlocksTree.mk i bg en bi d cs)

/-- A finalized thread root: its synthetic root depth is one plus the
largest frame depth, and every frame subtree has faithful depths. -/
def RootOk (r : RootState) : Prop :=
  r.rootDepth = r.siblings.foldl (fun d f => Nat.max d f.depth) 0 + 1 ∧
  ∀ f ∈ r.siblings, DepthOk f

/-- Every thread root in a successful result satisfies `RootOk`. -/
def ResultDepthOk : Except DecodeAbort FillResult → Prop
  | .error _ => True
  | .ok res => ∀ p ∈ res.trees, RootOk p.2

/-- The build-phase invariant: accumulated siblings all have faithful
depths, and no synthetic root depth has been touched yet. -/
def StDepthInv (st : DecodeState) : Prop :=
  ∀ p ∈ st.roots, (∀ f ∈ p.2.siblings, DepthOk f) ∧ p.2.rootDepth = 0

theorem assocSet_values {κ α : Type} [BEq κ] (P : α → Prop)
    (l : List (κ × α)) (k : κ) (v : α)
    (hl : ∀ p ∈ l, P p.2) (hv : P v) :
    ∀ p ∈ assocSet l k v, P p.2 := by
  induction l with
  | nil =>
    intro p hp
    simp only [assocSet, List.mem_singleton] at hp
    rw [hp]
    exact hv
  | cons q rest ih =>
    intro p hp
    simp only [assocSet] at hp
    by_cases hq : (q.1 == k) = true
    · rw [if_pos hq] at hp
      rcases List.mem_cons.mp hp with h | h
      · rw [h]
        exact hv
      · exact hl p (List.mem_cons_of_mem _ h)
    · rw [if_neg hq] at hp
      rcases List.mem_cons.mp hp with h | h
      · rw [h]
        exact hl q (List.mem_cons_self _ _)
      · exact ih (fun x hx => hl x (List.mem_cons_of_mem _ hx)) p h

theorem assocGet_mem {κ α : Type} [BEq κ] {l : List (κ × α)} {k : κ} {v : α}
    (h : assocGet l k = some v) : ∃ p ∈ l, p.2 = v := by
  unfold assocGet at h
  rcases hf : l.find? (fun p => p.1 == k) with _ | q
  · rw [hf] at h
    exact absurd h (by simp)
  · rw [hf] at h
    simp only [Option.map_some'] at h
    exact ⟨q, List.mem_of_find?_eq_some hf, by simpa using h⟩

theorem getRootD_inv {st : DecodeState} (hinv : StDepthInv st) (tid : Nat) :
    (∀ f ∈ (getRootD st.roots tid).siblings, DepthOk f) ∧
    (getRootD st.roots tid).rootDepth = 0 := by
  unfold getRootD
  rcases hg : assocGet st.roots tid with _ | r
  · constructor
    · intro f hf
      simp [RootState.empty] at hf
    · rfl
  · rcases assocGet_mem hg with ⟨p, hp, hpv⟩
    have hthis := hinv p hp
    rw [hpv] at hthis
    simpa using hthis

theorem depthOk_leaf (i bg en bi : Nat) :
    DepthOk (BlocksTree.mk i bg en bi 0 []) :=
  DepthOk.node i bg en bi 0 [] (fun c hc => absurd hc (by simp)) (by simp)

/-- Inserting a freshly decoded block preserves faithful depths of the
sibling chain: an adopted run becomes the children of a node whose depth is
one plus the largest adopted depth. -/
theorem insertIntoSiblings_depthOk (gather : Bool) (pstats : StatsMap)
    (siblings : List BlocksTree) (nid bg en bi : Nat)
    (hs : ∀ f ∈ siblings, DepthOk f) :
    ∀ f ∈ (insertIntoSiblings gather pstats siblings nid bg en bi).1,
      DepthOk f := by
  unfold insertIntoSiblings
  rcases hlast : siblings.getLast? with _ | back
  · intro f hf
    rcases List.mem_append.mp hf with h | h
    · exact hs f h
    · rw [List.mem_singleton.mp h]
      exact depthOk_leaf _ _ _ _
  · have hne : siblings ≠ [] := by
      intro he
      rw [he] at hlast
      exact absurd hlast (by simp)
    dsimp only
    by_cases hb : bg < back.endT
    · rw [if_pos hb]
      intro f hf
      rcases List.mem_append.mp hf with h | h
      · refine hs f ?_
        rw [← findChildrenSplit_decomp siblings bg hne]
        exact List.mem_append.mpr (Or.inl h)
      · rw [List.mem_singleton.mp h]
        refine DepthOk.node _ _ _ _ _ _ ?_ ?_
        · intro c hc
          refine hs c ?_
          rw [← findChildrenSplit_decomp siblings bg hne]
          exact List.mem_append.mpr (Or.inr hc)
        · have hemp : (findChildrenSplit siblings bg).2.isEmpty = false := by
            rcases hl : (findChildrenSplit siblings bg).2 with _ | ⟨x, xs⟩
            · exact absurd hl (findChildrenSplit_adopt_ne_nil siblings bg hne)
            · rfl
          rw [hemp]
          rfl
    · rw [if_neg hb]
      intro f hf
      rcases List.mem_append.mp hf with h | h
      · exact hs f h
      · rw [List.mem_singleton.mp h]
        exact depthOk_leaf _ _ _ _

theorem processBlock_depthInv {gather : Bool} {tid : Nat} {st : DecodeState}
    {b : SBlock} {st1 : DecodeState} (hinv : StDepthInv st)
    (h : processBlock gather tid st b = .ok st1) : StDepthInv st1 := by
  unfold processBlock at h
  by_cases hsz : b.sz = 0
  · rw [if_pos hsz] at h
    exact absurd h (by simp)
  · rw [if_neg hsz] at h
    rcases hd : st.descriptors.get? b.id with _ | d
    · rw [hd] at h
      exact absurd h (by simp)
    · rw [hd] at h
      simp only [Except.ok.injEq] at h
      rw [← h]
      unfold StDepthInv
      dsimp only
      refine assocSet_values
        (fun r : RootState => (∀ f ∈ r.siblings, DepthOk f) ∧ r.rootDepth = 0)
        st.roots tid _ (fun p hp => hinv p hp) ?_
      · have hroot := getRootD_inv hinv tid
        by_cases hdt : d.dtype = BLOCK_TYPE_THREAD_SIGN
        · simp only [hdt, if_pos rfl]
          refine ⟨?_, hroot.2⟩
          exact insertIntoSiblings_depthOk _ _ _ _ _ _ _ hroot.1
        · rw [if_neg hdt]
          refine ⟨?_, hroot.2⟩
          exact insertIntoSiblings_depthOk _ _ _ _ _ _ _ hroot.1

theorem processGroup_depthInv {gather : Bool} {env : Option (Nat × Int)}
    {ms tid : Nat} :
    ∀ (blocks : List SBlock) (st st1 : DecodeState), StDepthInv st →
      processGroup gather env ms tid st blocks = .ok st1 → StDepthInv st1 := by
  intro blocks
  induction blocks with
  | nil =>
    intro st st1 hinv h
    unfold processGroup at h
    simp only [Except.ok.injEq] at h
    rw [← h]
    exact hinv
  | cons b rest ih =>
    intro st st1 hinv h
    unfold processGroup at h
    rcases hpb : processBlock gather tid st b with e | stx
    · rw [hpb] at h
      exact absurd h (by simp)
    · rw [hpb] at h
      simp only at h
      have hstx := processBlock_depthInv hinv hpb
      have henv : StDepthInv (applyEnv env stx) := by
        unfold StDepthInv
        rw [(applyEnv_fields env stx).1]
        exact hstx
      by_cases hneg : (applyEnv env stx).progress < 0
      · rw [if_pos hneg] at h
        simp only [Except.ok.injEq] at h
        rw [← h]
        exact henv
      · rw [if_neg hneg] at h
        exact ih _ _ (by exact henv) h

theorem runGroups_depthInv {gather : Bool} {env : Option (Nat × Int)}
    {ms : Nat} :
    ∀ (groups : List (Nat × List SBlock)) (st st1 : DecodeState),
      StDepthInv st →
      runGroups gather env ms st groups = .ok st1 → StDepthInv st1 := by
  intro groups
  induction groups with
  | nil =>
    intro st st1 hinv h
    unfold runGroups at h
    simp only [Except.ok.injEq] at h
    rw [← h]
    exact hinv
  | cons g rest ih =>
    intro st st1 hinv h
    rcases g with ⟨tid, blocks⟩
    unfold runGroups at h
    rcases hpg : processGroup gather env ms tid
        { st with roots := ensureRoot st.roots tid } blocks with e | stx
    · rw [hpg] at h
      exact absurd h (by simp)
    · rw [hpg] at h
      have hens : StDepthInv { st with roots := ensureRoot st.roots tid } := by
        unfold StDepthInv ensureRoot
        dsimp only
        exact assocSet_values
          (fun r : RootState => (∀ f ∈ r.siblings, DepthOk f) ∧ r.rootDepth = 0)
          st.roots tid _ (fun p hp => hinv p hp) (getRootD_inv hinv tid)
      exact ih _ _ (processGroup_depthInv blocks _ _ hens hpg) h

/-- C9.  In the final output — for every input trace, for both values of the
statistics-gathering flag, and with or without a cancellation event — every
tree node's depth equals one plus the maximum depth of its children (0 with
no children), and every synthetic thread-root depth equals one plus the
maximum depth over its frames (the `Nat.max`-fold seeded at 0 computes
exactly that maximum). -/
theorem C9_depth_invariant (gather : Bool) (env : Option (Nat × Int))
    (ms : Nat) (descs : List Descriptor) (groups : List (Nat × List SBlock)) :
    ResultDepthOk (decodeRun gather env ms descs groups) := by
  unfold decodeRun
  rcases hg : runGroups gather env ms (DecodeState.init descs) groups
      with e | st
  · exact trivial
  · dsimp only
    have hinv : StDepthInv st :=
      runGroups_depthInv groups _ _ (fun p hp => absurd hp (by simp [DecodeState.init])) hg
    by_cases hneg : st.progress < 0
    · rw [if_pos hneg]
      intro p hp
      exact absurd hp (by simp)
    · rw [if_neg hneg]
      intro p hp
      rcases List.mem_map.mp hp with ⟨q, hq, hqe⟩
      have hquse := hinv q hq
      rw [← hqe]
      constructor
      · unfold finalizeRoot
        dsimp only
        rw [hquse.2]
      · intro f hf
        exact hquse.1 f hf

end ProfilerReader
